import Mathlib

/-!
Verification of the RegisterBankInfo subsystem (RegisterBankInfo.cpp):
register-bank coverage closure, value/instruction mapping structures with
their verify invariants, and the instruction-mapping inference algorithm.

The embedding follows the source file. External collaborators (the
register-class catalog, the machine-register info and the instruction
representation) are modelled as explicit query structures, matching the
boundary described in the specification.
-/

/-- Number of bits needed to represent `n` (fuel-driven so it reduces by
`rfl`/`decide`); `natBitsF n n` equals the position of the highest set bit
plus one, and `0` for `n = 0`. -/
def natBitsF : Nat → Nat → Nat
  | 0, _ => 0
  | fuel + 1, n => if n = 0 then 0 else natBitsF fuel (n / 2) + 1

/-- Bit length of a natural number. -/
def natBits (n : Nat) : Nat := natBitsF n n

/-- Number of trailing zero bits of `n` (fuel-driven); `0` for `n = 0`
(callers guard that case, as `APInt::countTrailingZeros` does for the
values reaching `PartialMapping::verify`). -/
def natCtzF : Nat → Nat → Nat
  | 0, _ => 0
  | fuel + 1, n => if n % 2 = 1 ∨ n = 0 then 0 else natCtzF fuel (n / 2) + 1

/-- Trailing-zero count of a positive natural number. -/
def natCtz (n : Nat) : Nat := natCtzF n n

/-- Element of a list at index `i`, with default `d` out of range. -/
def getIdxD {α : Type} : List α → Nat → α → α
  | [], _, d => d
  | a :: _, 0, _ => a
  | _ :: as, n + 1, d => getIdxD as n d

/-- Replace the element at index `i` by `f` applied to it; identity out of
range. -/
def modifyIdx {α : Type} (f : α → α) : Nat → List α → List α
  | _, [] => []
  | 0, a :: as => f a :: as
  | n + 1, a :: as => a :: modifyIdx f n as

/-- A register bank: a name, its maximal bit width (`Size`) and the set of
register classes it covers. `containedRegClasses = none` models the
not-yet-allocated `BitVector` of a bank whose coverage was never built. -/
structure RegisterBank where
  name : String
  size : Nat
  containedRegClasses : Option (Finset Nat)
deriving DecidableEq

/-- Modelled from the spec: a bank is valid once its coverage bit-set has
been allocated ("Check if RB is underconstruction", step 4.2.1); the
definition of `RegisterBank::isValid` is in `RegisterBank.cpp`, which is
not part of the sources. -/
def RegisterBank.isValid (rb : RegisterBank) : Bool :=
  rb.containedRegClasses.isSome

/-- Modelled from the spec: `RegisterBank::covers` (declared in
`RegisterBank.h`, absent from the sources) is the "set-valued membership
test over register classes" of the data model. -/
def RegisterBank.covers (rb : RegisterBank) (rcId : Nat) : Bool :=
  match rb.containedRegClasses with
  | none => false
  | some s => decide (rcId ∈ s)

/-- An `APInt`: a bit width and a value (interpreted modulo `2 ^ bitWidth`;
the masks built by the code are well formed, stated as a hypothesis where
needed). -/
structure APIntModel where
  bitWidth : Nat
  val : Nat
deriving DecidableEq

/-- `APInt::getBoolValue`: true iff the value is nonzero. -/
def APIntModel.getBoolValue (a : APIntModel) : Bool :=
  a.val != 0

/-- `APInt::countLeadingZeros`: zero bits above the highest set bit. -/
def APIntModel.countLeadingZeros (a : APIntModel) : Nat :=
  a.bitWidth - natBits a.val

/-- `APInt::countTrailingZeros`: zero bits below the lowest set bit
(`bitWidth` for the zero value). -/
def APIntModel.countTrailingZeros (a : APIntModel) : Nat :=
  if a.val = 0 then a.bitWidth else natCtz a.val

/-- Spec-side definition (from the wording of the claim, for comparison
with the code's `ActiveWidth`): the number of bit positions between the
mask's highest and lowest set bit, inclusive; `0` for an all-zero mask. -/
def APIntModel.activeSpan (a : APIntModel) : Nat :=
  if a.val = 0 then 0 else natBits a.val - 1 - natCtz a.val + 1

/-- `RegisterBankInfo::PartialMapping`: a mask plus the bank holding the
masked bits (the pointer may be null, hence `Option`). -/
structure PartialMapping where
  mask : APIntModel
  regBank : Option RegisterBank
deriving DecidableEq

/-- `PartialMapping::verify` (lines 347-364): the bank must be set, the
active width (bits between first and last set bit of the mask, `0` when
the mask is zero) must not overflow the bit width, and the bank must be at
least as large as the active width. -/
def PartialMapping.verify (pm : PartialMapping) : Bool :=
  match pm.regBank with
  | none => false
  | some rb =>
    let activeWidth :=
      if pm.mask.getBoolValue then
        pm.mask.bitWidth - pm.mask.countLeadingZeros - pm.mask.countTrailingZeros
      else 0
    decide (activeWidth ≤ pm.mask.bitWidth) && decide (rb.size ≥ activeWidth)

/-- `RegisterBankInfo::ValueMapping`: the decomposition (`BreakDown`) of
one value across partial mappings. -/
structure ValueMapping where
  breakDown : List PartialMapping
deriving DecidableEq

/-- Bitwise OR of all the masks of a breakdown, as accumulated by
`ValueMapping::verify`. -/
def orMasks (l : List PartialMapping) : Nat :=
  l.foldl (fun acc pm => acc ||| pm.mask.val) 0

/-- `ValueMapping::verify` (lines 376-392): the breakdown is non-empty,
its last element's bit width equals the expected one, every partial
mapping has that same bit width and itself verifies, and the OR of all the
masks is all-ones over that width. -/
def ValueMapping.verify (vm : ValueMapping) (expectedBitWidth : Nat) : Bool :=
  match vm.breakDown with
  | [] => false
  | pm0 :: rest =>
    let valueBitWidth := ((pm0 :: rest).getLast (List.cons_ne_nil pm0 rest)).mask.bitWidth
    decide (valueBitWidth = expectedBitWidth) &&
    (pm0 :: rest).all (fun pm =>
      decide (pm.mask.bitWidth = valueBitWidth) && pm.verify) &&
    decide (orMasks (pm0 :: rest) = 2 ^ valueBitWidth - 1)

/-- `UINT_MAX` on the 32-bit `unsigned` used for mapping identifiers. -/
def UINT_MAX : Nat := 2 ^ 32 - 1

/-- `RegisterBankInfo::DefaultMappingID` (line 33). -/
def DefaultMappingID : Nat := UINT_MAX

/-- `RegisterBankInfo::InvalidMappingID` (line 34). -/
def InvalidMappingID : Nat := UINT_MAX - 1

/-- `RegisterBankInfo::InstructionMapping`: identifier, cost and one value
mapping per operand. -/
structure InstructionMapping where
  mappingID : Nat
  cost : Nat
  operandsMapping : List ValueMapping
deriving DecidableEq

/-- Modelled from the spec: the default-constructed `InstructionMapping()`
is the distinguished "invalid" mapping ("empty-width-0, unusable",
zero-cost sentinel carrying `InvalidMappingID`); the constructor body is in
`RegisterBankInfo.h`, absent from the sources. -/
def InstructionMapping.invalid : InstructionMapping :=
  ⟨InvalidMappingID, 0, []⟩

/-- Modelled from the spec: a mapping is valid iff its identifier is not
the "invalid" sentinel (the "distinguished invalid mapping value"); the
accessor is declared in `RegisterBankInfo.h`, absent from the sources. -/
def InstructionMapping.isValid (m : InstructionMapping) : Bool :=
  m.mappingID != InvalidMappingID

/-- `InstructionMapping::getOperandMapping`: the value mapping of operand
`i`. -/
def InstructionMapping.getOperandMapping (m : InstructionMapping) (i : Nat) : ValueMapping :=
  getIdxD m.operandsMapping i ⟨[]⟩

/-- `InstructionMapping::setOperandMapping` (lines 394-404): push one
partial mapping whose mask is all-ones over `maskSize` bits onto operand
`opIdx`'s breakdown. -/
def InstructionMapping.setOperandMapping (m : InstructionMapping) (opIdx maskSize : Nat)
    (rb : RegisterBank) : InstructionMapping :=
  { m with
    operandsMapping :=
      modifyIdx
        (fun vm => ⟨vm.breakDown ++ [⟨⟨maskSize, 2 ^ maskSize - 1⟩, some rb⟩]⟩)
        opIdx m.operandsMapping }

/-- The register-class catalog collaborator (`TargetRegisterInfo`): number
of classes, per-class size in bytes (`getSize`, multiplied by 8 where the
code needs bits), the subclass bitmask (`subClass c s` iff class `s` is in
the mask returned by `getSubClassMask` of class `c`) and the
super-register-class relation (`superRegClass sub sup` iff class `sup`
appears in one of the masks enumerated by `SuperRegClassIterator` on class
`sub`). The chunked 32-bit mask walks of the source enumerate exactly the
set bits of these masks in increasing class-id order. -/
structure TRI where
  numRegClasses : Nat
  getSize : Nat → Nat
  subClass : Nat → Nat → Bool
  superRegClass : Nat → Nat → Bool

/-- State of the worklist loop of `addRegBankCoverage`: the bank's covered
set, its running maximal size in bits, and the worklist stack. -/
structure CoverState where
  covered : Finset Nat
  maxSize : Nat
  worklist : List Nat
deriving DecidableEq

/-- `WorkList.push_back(Id); Covered.set(Id);` — the only way a class
enters the worklist (the stack top is the list head). -/
def coverPush (i : Nat) (st : CoverState) : CoverState :=
  { st with covered := insert i st.covered, worklist := i :: st.worklist }

/-- One mask scan of `addRegBankCoverage`: walk the class ids `l` in
order, and push-and-cover every id satisfying `q` that is not yet covered
(both the subclass scan, lines 122-152, and the subreg-class scan, lines
166-206, have this shape over `0 ..< numRegClasses`). -/
def scanPush (q : Nat → Bool) (l : List Nat) (st : CoverState) : CoverState :=
  l.foldl (fun st i => if q i = true ∧ i ∉ st.covered then coverPush i st else st) st

/-- Body of the worklist loop (lines 110-209) for one popped class `c`:
record its size into the running maximum, push its uncovered subclasses,
then push every uncovered class one of whose super-register-class masks
contains `c`. -/
def processClass (tri : TRI) (c : Nat) (st : CoverState) : CoverState :=
  scanPush (fun i => tri.superRegClass i c) (List.range tri.numRegClasses)
    (scanPush (fun i => tri.subClass c i) (List.range tri.numRegClasses)
      { st with maxSize := max st.maxSize (tri.getSize c * 8) })

/-- The worklist loop: pop and process classes until the worklist is
empty. Written with explicit fuel so that it is structurally recursive and
evaluates by `decide`; the termination theorem shows the fuel used by
`addRegBankCoverage` is never exhausted. -/
def coverLoop (tri : TRI) : Nat → CoverState → CoverState
  | 0, st => st
  | fuel + 1, st =>
    match st.worklist with
    | [] => st
    | c :: rest => coverLoop tri fuel (processClass tri c { st with worklist := rest })

/-- Seed the worklist with `rcId`, mark it covered, run the loop starting
from the bank's current size, and store the results in the bank
(lines 103-209, starting from covered set `s`). -/
def runCoverage (tri : TRI) (rb : RegisterBank) (s : Finset Nat) (rcId : Nat) : RegisterBank :=
  { rb with
    size := (coverLoop tri (tri.numRegClasses + 1) ⟨insert rcId s, rb.size, [rcId]⟩).maxSize
    containedRegClasses :=
      some (coverLoop tri (tri.numRegClasses + 1) ⟨insert rcId s, rb.size, [rcId]⟩).covered }

/-- `RegisterBankInfo::addRegBankCoverage` (lines 88-210) on one bank: if
the bank is under construction, allocate its covered set; otherwise return
immediately when the seed class is already covered; then run the closure
worklist. (The enclosing registry lookup `getRegBank(ID)` is plain array
indexing.) -/
def addRegBankCoverage (tri : TRI) (rb : RegisterBank) (rcId : Nat) : RegisterBank :=
  match rb.containedRegClasses with
  | none => runCoverage tri rb ∅ rcId
  | some s => if rb.covers rcId then rb else runCoverage tri rb s rcId

/-- A machine operand, as queried by the inference loop: whether it is a
register operand, and its register (0 is `NoRegister`). -/
structure MachineOperand where
  isReg : Bool
  reg : Nat
deriving DecidableEq

/-- A machine instruction, as queried by the inference loop: opcode,
the copy/phi classification and its operands. -/
structure MachineInstr where
  opcode : Nat
  isCopy : Bool
  isPHI : Bool
  operands : List MachineOperand
deriving DecidableEq

/-- The collaborator queries consumed by the inference engine (spec §6):
the bank already assigned to a register (`getRegBank(Reg, MRI, TRI)`,
lines 212-227, reading the register-use table), the encoding-implied
register-class constraint of an operand slot
(`MI.getRegClassConstraint(OpIdx, &TII, &TRI)`, keyed by opcode and
operand index), the bank covering a register class
(`getRegBankFromRegClass`), register bit sizes (`getSizeInBits`,
lines 39-58), the generic-opcode test, and the target's virtual
`getInstrAlternativeMappings` override. -/
structure MappingEnv where
  regBank : Nat → Option RegisterBank
  regClassConstraint : Nat → Nat → Option Nat
  bankFromClass : Nat → RegisterBank
  sizeInBits : Nat → Nat
  isPreISelGenericOpcode : Nat → Bool
  altMappings : MachineInstr → List InstructionMapping

/-- Lines 257-266: the bank of register `r` at operand slot `opIdx`; when
the register has no bank yet, fall back to the bank of the operand's
register-class constraint, if any. -/
def resolveOpBank (env : MappingEnv) (opc opIdx r : Nat) : Option RegisterBank :=
  match env.regBank r with
  | some rb => some rb
  | none => (env.regClassConstraint opc opIdx).map env.bankFromClass

/-- State of the operand scan of `getInstrMappingImpl`: `CompleteMapping`,
the last bank found (`RegBank`), the bit size of the register that
produced it (`RegSize`), and the mapping under construction. -/
structure ScanState where
  completeMapping : Bool
  regBank : Option RegisterBank
  regSize : Nat
  mapping : InstructionMapping
deriving DecidableEq

/-- Outcome of one iteration of the operand loop: early `return
InstructionMapping()`, `break`, or fall through to the next operand. -/
inductive StepRes where
  | ret : StepRes
  | brk : ScanState → StepRes
  | cont : ScanState → StepRes
deriving DecidableEq

/-- Outcome of the whole operand loop. -/
inductive ScanRes where
  | invalid : ScanRes
  | broke : ScanState → ScanRes
  | ran : ScanState → ScanRes
deriving DecidableEq

/-- One iteration of the loop at lines 250-283: skip non-register and
null-register operands; resolve the operand's bank; on failure mark the
mapping incomplete, return the invalid mapping for non-copy-like
instructions, break once a bank was already found, and otherwise continue;
on success record the bank and the register's size and map the operand to
a single all-ones partial mapping. -/
def scanStep (env : MappingEnv) (mi : MachineInstr) (isCopyLike : Bool) (opIdx : Nat)
    (st : ScanState) : StepRes :=
  match mi.operands[opIdx]? with
  | none => .cont st
  | some mo =>
    if mo.isReg = false then .cont st
    else if mo.reg = 0 then .cont st
    else
      match resolveOpBank env mi.opcode opIdx mo.reg with
      | none =>
        if isCopyLike = false then .ret
        else if st.regBank.isSome then .brk { st with completeMapping := false }
        else .cont { st with completeMapping := false }
      | some curRegBank =>
        .cont
          { st with
            regBank := some curRegBank
            regSize := env.sizeInBits mo.reg
            mapping := st.mapping.setOperandMapping opIdx (env.sizeInBits mo.reg) curRegBank }

/-- The operand loop over the given operand indices. -/
def scanOps (env : MappingEnv) (mi : MachineInstr) (isCopyLike : Bool) :
    List Nat → ScanState → ScanRes
  | [], st => .ran st
  | i :: rest, st =>
    match scanStep env mi isCopyLike i st with
    | .ret => .invalid
    | .brk st1 => .broke st1
    | .cont st1 => scanOps env mi isCopyLike rest st1

/-- The freshly constructed `Mapping(DefaultMappingID, 1, NumOperands)`
of line 231: one empty value mapping per operand. -/
def initMapping (numOps : Nat) : InstructionMapping :=
  ⟨DefaultMappingID, 1, List.replicate numOps ⟨[]⟩⟩

/-- Initial scan state: complete so far, no bank found, size 0. -/
def initScanState (numOps : Nat) : ScanState :=
  ⟨true, none, 0, initMapping numOps⟩

/-- The operand loop of `getInstrMappingImpl` run over all operands. -/
def scanInstr (env : MappingEnv) (mi : MachineInstr) : ScanRes :=
  scanOps env mi (mi.isCopy || mi.isPHI) (List.range mi.operands.length)
    (initScanState mi.operands.length)

/-- The propagation loop at lines 297-303: assign `(regSize, rb)` to every
operand whose breakdown is still empty. -/
def propagateBank (numOps regSize : Nat) (rb : RegisterBank) (m : InstructionMapping) :
    InstructionMapping :=
  (List.range numOps).foldl
    (fun m i =>
      if (m.getOperandMapping i).breakDown = [] then m.setOperandMapping i regSize rb
      else m)
    m

/-- `RegisterBankInfo::getInstrMappingImpl` (lines 229-305). -/
def getInstrMappingImpl (env : MappingEnv) (mi : MachineInstr) : InstructionMapping :=
  match scanInstr env mi with
  | .invalid => InstructionMapping.invalid
  | .broke st =>
    if st.completeMapping then st.mapping
    else
      match st.regBank with
      | none => InstructionMapping.invalid
      | some rb => propagateBank mi.operands.length st.regSize rb st.mapping
  | .ran st =>
    if st.completeMapping then st.mapping
    else
      match st.regBank with
      | none => InstructionMapping.invalid
      | some rb => propagateBank mi.operands.length st.regSize rb st.mapping

/-- `RegisterBankInfo::getInstrMapping` (lines 307-315): for non-generic
opcodes return the default inference when it is valid; every other path
reaches `llvm_unreachable`, modelled as `none`. -/
def getInstrMapping? (env : MappingEnv) (mi : MachineInstr) : Option InstructionMapping :=
  if env.isPreISelGenericOpcode mi.opcode = false then
    if (getInstrMappingImpl env mi).isValid then some (getInstrMappingImpl env mi) else none
  else none

/-- `RegisterBankInfo::getInstrAlternativeMappings` (lines 333-337), the
base implementation: no alternatives. -/
def getInstrAlternativeMappings (_mi : MachineInstr) : List InstructionMapping := []

/-- `RegisterBankInfo::getInstrPossibleMappings` (lines 317-331): the
default mapping first, then the target-supplied alternatives in order;
`none` when `getInstrMapping` reaches its fatal path. -/
def getInstrPossibleMappings? (env : MappingEnv) (mi : MachineInstr) :
    Option (List InstructionMapping) :=
  (getInstrMapping? env mi).map (fun m => m :: env.altMappings mi)

/-- The single-partial-mapping value mapping built by `setOperandMapping`
on an empty breakdown: one all-ones mask of width `sz` into bank `rb`. -/
def singleMapping (sz : Nat) (rb : RegisterBank) : ValueMapping :=
  ⟨[⟨⟨sz, 2 ^ sz - 1⟩, some rb⟩]⟩

/-- An operand the inference cannot resolve: a register operand with a
real register, no known bank and no bank derivable from the register-class
constraint. -/
def unresolvableRegOperand (env : MappingEnv) (mi : MachineInstr) (i : Nat) : Prop :=
  ∃ mo, mi.operands[i]? = some mo ∧ mo.isReg = true ∧ mo.reg ≠ 0 ∧
    resolveOpBank env mi.opcode i mo.reg = none

/-- Invariant of the operand scan: the held bank, when present, is the
resolved bank of some scanned operand, and `regSize` is that operand's
register's bit size. -/
def regBankFromScannedOperand (env : MappingEnv) (mi : MachineInstr) (st : ScanState) : Prop :=
  st.regBank = none ∨
    ∃ j mo, mi.operands[j]? = some mo ∧
      resolveOpBank env mi.opcode j mo.reg = st.regBank ∧
      st.regSize = env.sizeInBits mo.reg

/-- Measure of the coverage worklist loop: uncovered classes plus pending
worklist entries; it decreases by one at every iteration. -/
def coverMeasure (tri : TRI) (st : CoverState) : Nat :=
  (tri.numRegClasses - st.covered.card) + st.worklist.length

/-- Worklist-loop invariant behind claim C6: every covered class is either
still pending on the worklist or already accounted for in the running
maximal size. -/
def coverInv (tri : TRI) (st : CoverState) : Prop :=
  ∀ x ∈ st.covered, x ∈ st.worklist ∨ tri.getSize x * 8 ≤ st.maxSize

/-- A 64-bit floating-point bank. -/
def bankF64 : RegisterBank := ⟨"F64", 64, none⟩

/-- A general-purpose bank used by the copy-propagation examples. -/
def bankGPR : RegisterBank := ⟨"GPR", 64, none⟩

/-- A tiny 2-bit bank for the mask-verification examples. -/
def bankB2 : RegisterBank := ⟨"B2", 2, none⟩

/-- A 2-operand register copy: operand 0 is register 1 (no known bank),
operand 1 is register 2. -/
def miCopy : MachineInstr := ⟨0, true, false, [⟨true, 1⟩, ⟨true, 2⟩]⟩

/-- Environment for the copy example: register 2 is known to be in bank
F64, all registers are 64 bits wide, no register-class constraints, the
copy opcode is not generic, and no target alternatives. -/
def envCopy : MappingEnv :=
  ⟨fun r => if r = 2 then some bankF64 else none,
   fun _ _ => none,
   fun _ => bankF64,
   fun _ => 64,
   fun _ => false,
   fun _ => []⟩

/-- A 3-operand phi: registers 1, 2 and 3. -/
def miPhi : MachineInstr := ⟨1, false, true, [⟨true, 1⟩, ⟨true, 2⟩, ⟨true, 3⟩]⟩

/-- Environment for the phi example: registers 1 and 2 are both in bank
GPR with widths 32 and 64 respectively, register 3 has no bank and no
constraint and is 16 bits wide. -/
def envPhi : MappingEnv :=
  ⟨fun r => if r = 1 ∨ r = 2 then some bankGPR else none,
   fun _ _ => none,
   fun _ => bankGPR,
   fun r => if r = 1 then 32 else if r = 2 then 64 else 16,
   fun _ => false,
   fun _ => []⟩

/-- A 2-operand non-copy instruction whose operand 1 (register 4) has no
bank and no constraint under `envPhi`. -/
def miAdd : MachineInstr := ⟨7, false, false, [⟨true, 1⟩, ⟨true, 4⟩]⟩

/-- A partial mapping whose 2-bit mask is `0b11`. -/
def pmOv1 : PartialMapping := ⟨⟨2, 3⟩, some bankB2⟩

/-- A partial mapping whose 2-bit mask is `0b10`, overlapping `pmOv1` on
bit 1. -/
def pmOv2 : PartialMapping := ⟨⟨2, 2⟩, some bankB2⟩

/-- A value mapping whose two masks overlap on bit 1 yet OR to all-ones. -/
def overlapVM : ValueMapping := ⟨[pmOv1, pmOv2]⟩

/-- A 3-class catalog: class 0 is 8 bytes with subclass 1 (4 bytes); class
2 (2 bytes) is reachable only through its super-register-class relation
pointing at class 0. -/
def triW : TRI :=
  ⟨3,
   fun c => if c = 0 then 8 else if c = 1 then 4 else 2,
   fun c s => c = 0 && s = 1,
   fun sub sup => sub = 2 && sup = 0⟩

/-- A bank under construction (no coverage yet). -/
def rbW : RegisterBank := ⟨"G", 0, none⟩

/-- The seeded worklist state used by the termination witness. -/
def stW : CoverState := ⟨{0}, 0, [0]⟩

/-- A 4-operand phi: the scan breaks at operand 1 (register 3, bankless
under `envPhi`), so operands 2 and 3 are never examined. -/
def miPhi4 : MachineInstr := ⟨1, false, true, [⟨true, 1⟩, ⟨true, 3⟩, ⟨true, 2⟩, ⟨true, 3⟩]⟩

/-- Same as `miPhi4` up to and including the break operand, arbitrary
afterwards. -/
def miPhi4b : MachineInstr := ⟨1, false, true, [⟨true, 1⟩, ⟨true, 3⟩, ⟨true, 5⟩, ⟨false, 0⟩]⟩

/-- The scan state after the first operand of `miPhi4` under `envPhi`. -/
def stPhi4 : ScanState :=
  ⟨true, some bankGPR, 32,
   ⟨DefaultMappingID, 1, [singleMapping 32 bankGPR, ⟨[]⟩, ⟨[]⟩, ⟨[]⟩]⟩⟩

/-- The state in which the scan of `miPhi` under `envPhi` breaks: the bank
held is GPR, last resolved by operand 1 (register 2, 64 bits). -/
def stPhiB : ScanState :=
  ⟨false, some bankGPR, 64,
   ⟨DefaultMappingID, 1, [singleMapping 32 bankGPR, singleMapping 64 bankGPR, ⟨[]⟩]⟩⟩

theorem natBitsF_zero (fuel : Nat) : natBitsF fuel 0 = 0 := by
  cases fuel <;> simp [natBitsF]

theorem natBitsF_pos_bounds :
    ∀ fuel n, n ≠ 0 → n ≤ fuel →
      1 ≤ natBitsF fuel n ∧ 2 ^ (natBitsF fuel n - 1) ≤ n ∧ n < 2 ^ natBitsF fuel n := by
  intro fuel
  induction fuel with
  | zero => intro n h0 hle; omega
  | succ fuel ih =>
    intro n h0 hle
    simp only [natBitsF, if_neg h0]
    by_cases hhalf : n / 2 = 0
    · have hn1 : n = 1 := by omega
      rw [hhalf, natBitsF_zero]
      subst hn1
      norm_num
    · obtain ⟨h1, h2, h3⟩ := ih (n / 2) hhalf (by omega)
      have e1 : 2 ^ (natBitsF fuel (n / 2) - 1) * 2 = 2 ^ natBitsF fuel (n / 2) := by
        rw [← pow_succ]
        congr 1
        omega
      have e2 : 2 ^ (natBitsF fuel (n / 2) + 1) = 2 ^ natBitsF fuel (n / 2) * 2 :=
        pow_succ 2 _
      have goal2 : 2 ^ (natBitsF fuel (n / 2) + 1 - 1) ≤ n := by
        simp only [Nat.add_sub_cancel]
        omega
      exact ⟨by omega, goal2, by omega⟩

theorem natCtzF_pow_le :
    ∀ fuel n, n ≠ 0 → n ≤ fuel → 2 ^ natCtzF fuel n ≤ n := by
  intro fuel
  induction fuel with
  | zero => intro n h0 hle; omega
  | succ fuel ih =>
    intro n h0 hle
    simp only [natCtzF]
    by_cases hcase : n % 2 = 1 ∨ n = 0
    · rw [if_pos hcase]
      simpa using Nat.one_le_iff_ne_zero.mpr h0
    · rw [if_neg hcase]
      push_neg at hcase
      have hhalf : n / 2 ≠ 0 := by omega
      have hrec := ih (n / 2) hhalf (by omega)
      have e : 2 ^ (natCtzF fuel (n / 2) + 1) = 2 ^ natCtzF fuel (n / 2) * 2 := pow_succ 2 _
      omega

theorem natBits_bounds {n : Nat} (h0 : n ≠ 0) :
    1 ≤ natBits n ∧ 2 ^ (natBits n - 1) ≤ n ∧ n < 2 ^ natBits n :=
  natBitsF_pos_bounds n n h0 le_rfl

theorem natCtz_pow_le {n : Nat} (h0 : n ≠ 0) : 2 ^ natCtz n ≤ n :=
  natCtzF_pow_le n n h0 le_rfl

theorem natBits_le_of_lt_pow {n w : Nat} (h0 : n ≠ 0) (h : n < 2 ^ w) : natBits n ≤ w := by
  obtain ⟨h1, h2, h3⟩ := natBits_bounds h0
  by_contra hlt
  push_neg at hlt
  have hle : w ≤ natBits n - 1 := by omega
  have : 2 ^ w ≤ 2 ^ (natBits n - 1) := Nat.pow_le_pow_right (by norm_num) hle
  omega

theorem natCtz_lt_natBits {n : Nat} (h0 : n ≠ 0) : natCtz n < natBits n := by
  have hc := natCtz_pow_le h0
  obtain ⟨h1, h2, h3⟩ := natBits_bounds h0
  by_contra h
  push_neg at h
  have : 2 ^ natBits n ≤ 2 ^ natCtz n :=
    Nat.pow_le_pow_right (by norm_num) h
  omega

/-- Claim C8: a `PartialMapping` whose mask's active span (the number of
bit positions between its highest and lowest set bit, inclusive, `0` for
an all-zero mask) exceeds the referenced bank's maximal bit width fails
`PartialMapping::verify`; equivalently, `verify` succeeds exactly when the
bank's size is at least the mask's active span. -/
theorem C8_partialMapping_verify_span (pm : PartialMapping) (rb : RegisterBank)
    (hb : pm.regBank = some rb) (hwf : pm.mask.val < 2 ^ pm.mask.bitWidth) :
    pm.verify = true ↔ rb.size ≥ pm.mask.activeSpan := by
  unfold PartialMapping.verify
  rw [hb]
  by_cases h0 : pm.mask.val = 0
  · simp [APIntModel.getBoolValue, APIntModel.activeSpan, h0]
  · have hbits := natBits_le_of_lt_pow h0 hwf
    have hctz := natCtz_lt_natBits h0
    have hbool : pm.mask.getBoolValue = true := by
      simp [APIntModel.getBoolValue, h0]
    rw [hbool]
    simp only [if_pos rfl, APIntModel.countLeadingZeros, APIntModel.countTrailingZeros,
      if_neg h0, ite_true]
    have hspan : pm.mask.activeSpan = natBits pm.mask.val - natCtz pm.mask.val := by
      unfold APIntModel.activeSpan
      rw [if_neg h0]
      omega
    have haw : pm.mask.bitWidth - (pm.mask.bitWidth - natBits pm.mask.val) -
        natCtz pm.mask.val = natBits pm.mask.val - natCtz pm.mask.val := by
      omega
    rw [haw, hspan]
    have hle : natBits pm.mask.val - natCtz pm.mask.val ≤ pm.mask.bitWidth := by omega
    simp [Bool.and_eq_true, decide_eq_true_eq, hle, ge_iff_le]

/-- Claim C7: every `ValueMapping` accepted by `verify(ExpectedBitWidth)`
has a non-empty breakdown, all its masks have bit width equal to the
declared expected width, and the OR of all the masks is all-ones over that
width; overlapping (double-covered) bits are not rejected, as the
overlapping example `overlapVM` shows. -/
theorem C7_valueMapping_verify_coverage :
    (∀ (vm : ValueMapping) (w : Nat), vm.verify w = true →
      vm.breakDown ≠ [] ∧
      (∀ pm ∈ vm.breakDown, pm.mask.bitWidth = w) ∧
      orMasks vm.breakDown = 2 ^ w - 1) ∧
    (overlapVM.verify 2 = true ∧ pmOv1.mask.val &&& pmOv2.mask.val ≠ 0) := by
  constructor
  · intro vm w hv
    obtain ⟨bd⟩ := vm
    cases bd with
    | nil => simp [ValueMapping.verify] at hv
    | cons pm0 rest =>
      simp only [ValueMapping.verify, Bool.and_eq_true, decide_eq_true_eq,
        List.all_eq_true] at hv
      obtain ⟨⟨hlast, hall⟩, hor⟩ := hv
      refine ⟨by simp, ?_, ?_⟩
      · intro pm hpm
        have := (hall pm hpm).1
        omega
      · rw [← hlast]
        exact hor
  · exact ⟨by decide, by decide⟩

theorem C8_witness : pmOv2.verify = true ↔ bankB2.size ≥ pmOv2.mask.activeSpan :=
  C8_partialMapping_verify_span pmOv2 bankB2 rfl (by decide)

theorem C7_witness :
    overlapVM.breakDown ≠ [] ∧ orMasks overlapVM.breakDown = 2 ^ 2 - 1 ∧
      pmOv1.mask.bitWidth = 2 :=
  ⟨(C7_valueMapping_verify_coverage.1 overlapVM 2 (by decide)).1,
   (C7_valueMapping_verify_coverage.1 overlapVM 2 (by decide)).2.2,
   (C7_valueMapping_verify_coverage.1 overlapVM 2 (by decide)).2.1 pmOv1 (by decide)⟩

/-- Claim C1: for the 2-operand copy whose operand 0 is a register with no
bank and no register-class constraint and whose operand 1 is a register in
bank F64 with bit width 64, `getInstrMapping` returns the mapping that
assigns both operands a single partial mapping over F64 at width 64. -/
theorem C1_copy_f64_propagation :
    getInstrMapping? envCopy miCopy =
      some ⟨DefaultMappingID, 1, [singleMapping 64 bankF64, singleMapping 64 bankF64]⟩ := by
  decide

/-- Claim C9: `getInstrPossibleMappings` puts the `getInstrMapping` result
at index 0, followed by exactly the target-supplied alternatives in order;
with the base `getInstrAlternativeMappings` (no alternatives) the sequence
has length 1. -/
theorem C9_possibleMappings_default_first (env : MappingEnv) (mi : MachineInstr)
    (m : InstructionMapping) (h : getInstrMapping? env mi = some m) :
    getInstrPossibleMappings? env mi = some (m :: env.altMappings mi) ∧
    (env.altMappings mi = getInstrAlternativeMappings mi →
      getInstrPossibleMappings? env mi = some [m]) := by
  constructor
  · rw [getInstrPossibleMappings?, h]
    rfl
  · intro halt
    rw [getInstrPossibleMappings?, h, halt, getInstrAlternativeMappings]
    rfl

theorem C9_witness :
    getInstrPossibleMappings? envCopy miCopy =
      some [⟨DefaultMappingID, 1, [singleMapping 64 bankF64, singleMapping 64 bankF64]⟩] :=
  (C9_possibleMappings_default_first envCopy miCopy
    ⟨DefaultMappingID, 1, [singleMapping 64 bankF64, singleMapping 64 bankF64]⟩
    (by decide)).2 rfl

theorem scanPush_cons (q : Nat → Bool) (i : Nat) (rest : List Nat) (st : CoverState) :
    scanPush q (i :: rest) st =
      scanPush q rest (if q i = true ∧ i ∉ st.covered then coverPush i st else st) := rfl

theorem scanPush_covered_mono (q : Nat → Bool) :
    ∀ (l : List Nat) (st : CoverState), st.covered ⊆ (scanPush q l st).covered := by
  intro l
  induction l with
  | nil => intro st; exact Finset.Subset.refl _
  | cons i rest ih =>
    intro st
    rw [scanPush_cons]
    by_cases hc : q i = true ∧ i ∉ st.covered
    · rw [if_pos hc]
      exact Finset.Subset.trans (Finset.subset_insert i st.covered) (ih (coverPush i st))
    · rw [if_neg hc]
      exact ih st

theorem processClass_covered_mono (tri : TRI) (c : Nat) (st : CoverState) :
    st.covered ⊆ (processClass tri c st).covered := by
  rw [processClass]
  exact Finset.Subset.trans
    (scanPush_covered_mono (fun i => tri.subClass c i) (List.range tri.numRegClasses)
      { st with maxSize := max st.maxSize (tri.getSize c * 8) })
    (scanPush_covered_mono (fun i => tri.superRegClass i c) (List.range tri.numRegClasses) _)

theorem coverLoop_covered_mono (tri : TRI) :
    ∀ (fuel : Nat) (st : CoverState), st.covered ⊆ (coverLoop tri fuel st).covered := by
  intro fuel
  induction fuel with
  | zero => intro st; exact Finset.Subset.refl _
  | succ fuel ih =>
    intro st
    rw [coverLoop]
    cases hwl : st.worklist with
    | nil => exact Finset.Subset.refl _
    | cons c rest =>
      exact Finset.Subset.trans
        (processClass_covered_mono tri c { st with worklist := rest }) (ih _)

theorem scanPush_facts (tri : TRI) (q : Nat → Bool) :
    ∀ (l : List Nat) (st : CoverState),
      (∀ i ∈ l, i < tri.numRegClasses) →
      st.covered ⊆ Finset.range tri.numRegClasses →
      (scanPush q l st).covered ⊆ Finset.range tri.numRegClasses ∧
      coverMeasure tri (scanPush q l st) = coverMeasure tri st ∧
      (scanPush q l st).maxSize = st.maxSize ∧
      (∀ x ∈ st.worklist, x ∈ (scanPush q l st).worklist) ∧
      (∀ x ∈ (scanPush q l st).covered, x ∈ st.covered ∨ x ∈ (scanPush q l st).worklist) := by
  intro l
  induction l with
  | nil =>
    intro st _ hsub
    exact ⟨hsub, rfl, rfl, fun x hx => hx, fun x hx => Or.inl hx⟩
  | cons i rest ih =>
    intro st hl hsub
    rw [scanPush_cons]
    by_cases hc : q i = true ∧ i ∉ st.covered
    · rw [if_pos hc]
      have hi : i < tri.numRegClasses := hl i (List.mem_cons_self i rest)
      have hsub1 : (coverPush i st).covered ⊆ Finset.range tri.numRegClasses := by
        simp only [coverPush]
        exact Finset.insert_subset (Finset.mem_range.mpr hi) hsub
      obtain ⟨f1, f2, f3, f4, f5⟩ :=
        ih (coverPush i st) (fun x hx => hl x (List.mem_cons_of_mem i hx)) hsub1
      have hcard : st.covered.card < tri.numRegClasses := by
        have hss : st.covered ⊂ Finset.range tri.numRegClasses :=
          (Finset.ssubset_iff_of_subset hsub).mpr ⟨i, Finset.mem_range.mpr hi, hc.2⟩
        have hlt := Finset.card_lt_card hss
        simpa using hlt
      have hmeas : coverMeasure tri (coverPush i st) = coverMeasure tri st := by
        unfold coverMeasure coverPush
        simp only [List.length_cons]
        rw [Finset.card_insert_of_not_mem hc.2]
        omega
      refine ⟨f1, by rw [f2, hmeas], f3, ?_, ?_⟩
      · intro x hx
        exact f4 x (List.mem_cons_of_mem i hx)
      · intro x hx
        rcases f5 x hx with hxc | hxw
        · have hsplit : x = i ∨ x ∈ st.covered := by
            simpa only [coverPush, Finset.mem_insert] using hxc
          rcases hsplit with rfl | hx'
          · exact Or.inr (f4 x (List.mem_cons_self x st.worklist))
          · exact Or.inl hx'
        · exact Or.inr hxw
    · rw [if_neg hc]
      exact ih st (fun x hx => hl x (List.mem_cons_of_mem i hx)) hsub

theorem processClass_facts (tri : TRI) (c : Nat) (st : CoverState)
    (hsub : st.covered ⊆ Finset.range tri.numRegClasses) :
    (processClass tri c st).covered ⊆ Finset.range tri.numRegClasses ∧
    coverMeasure tri (processClass tri c st) = coverMeasure tri st ∧
    st.maxSize ≤ (processClass tri c st).maxSize ∧
    tri.getSize c * 8 ≤ (processClass tri c st).maxSize ∧
    (∀ x ∈ st.worklist, x ∈ (processClass tri c st).worklist) ∧
    (∀ x ∈ (processClass tri c st).covered,
      x ∈ st.covered ∨ x ∈ (processClass tri c st).worklist) := by
  have hl : ∀ i ∈ List.range tri.numRegClasses, i < tri.numRegClasses :=
    fun i hi => List.mem_range.mp hi
  obtain ⟨g1, g2, g3, g4, g5⟩ :=
    scanPush_facts tri (fun i => tri.subClass c i) (List.range tri.numRegClasses)
      { st with maxSize := max st.maxSize (tri.getSize c * 8) } hl hsub
  obtain ⟨h1, h2, h3, h4, h5⟩ :=
    scanPush_facts tri (fun i => tri.superRegClass i c) (List.range tri.numRegClasses)
      (scanPush (fun i => tri.subClass c i) (List.range tri.numRegClasses)
        { st with maxSize := max st.maxSize (tri.getSize c * 8) }) hl g1
  refine ⟨h1, ?_, ?_, ?_, ?_, ?_⟩
  · rw [processClass, h2, g2]
    rfl
  · rw [processClass, h3, g3]
    exact le_max_left _ _
  · rw [processClass, h3, g3]
    exact le_max_right _ _
  · intro x hx
    exact h4 x (g4 x hx)
  · intro x hx
    rcases h5 x hx with hxc | hxw
    · rcases g5 x hxc with hxc' | hxw'
      · exact Or.inl hxc'
      · exact Or.inr (h4 x hxw')
    · exact Or.inr hxw

theorem coverLoop_nil (tri : TRI) (fuel : Nat) (st : CoverState)
    (hwl : st.worklist = []) : coverLoop tri fuel st = st := by
  cases fuel with
  | zero => rfl
  | succ fuel => rw [coverLoop, hwl]

theorem coverLoop_empties (tri : TRI) :
    ∀ (fuel : Nat) (st : CoverState), st.covered ⊆ Finset.range tri.numRegClasses →
      coverMeasure tri st ≤ fuel → (coverLoop tri fuel st).worklist = [] := by
  intro fuel
  induction fuel with
  | zero =>
    intro st _ hm
    unfold coverMeasure at hm
    have hlen : st.worklist.length = 0 := by omega
    rw [coverLoop]
    exact List.length_eq_zero.mp hlen
  | succ fuel ih =>
    intro st hsub hm
    rw [coverLoop]
    cases hwl : st.worklist with
    | nil => exact hwl
    | cons c rest =>
      obtain ⟨f1, f2, _, _, _, _⟩ :=
        processClass_facts tri c { st with worklist := rest } hsub
      apply ih _ f1
      rw [f2]
      unfold coverMeasure at hm ⊢
      rw [hwl] at hm
      simp only [List.length_cons] at hm
      simp only []
      omega

theorem coverLoop_fuel_stable (tri : TRI) :
    ∀ (fuel : Nat) (st : CoverState), st.covered ⊆ Finset.range tri.numRegClasses →
      coverMeasure tri st ≤ fuel →
      coverLoop tri fuel st = coverLoop tri (coverMeasure tri st) st := by
  intro fuel
  induction fuel with
  | zero =>
    intro st _ hm
    have h0 : coverMeasure tri st = 0 := by omega
    rw [h0]
  | succ fuel ih =>
    intro st hsub hm
    cases hwl : st.worklist with
    | nil =>
      rw [coverLoop_nil tri (fuel + 1) st hwl, coverLoop_nil tri _ st hwl]
    | cons c rest =>
      have hm1 : 1 ≤ coverMeasure tri st := by
        unfold coverMeasure
        rw [hwl]
        simp only [List.length_cons]
        omega
      obtain ⟨m', hm'⟩ : ∃ m', coverMeasure tri st = m' + 1 :=
        ⟨coverMeasure tri st - 1, by omega⟩
      obtain ⟨f1, f2, _, _, _, _⟩ :=
        processClass_facts tri c { st with worklist := rest } hsub
      have hmeq : coverMeasure tri (processClass tri c { st with worklist := rest }) = m' := by
        rw [f2]
        unfold coverMeasure at hm' ⊢
        rw [hwl] at hm'
        simp only [List.length_cons] at hm'
        simp only []
        omega
      rw [hm', coverLoop, coverLoop, hwl]
      show coverLoop tri fuel (processClass tri c { st with worklist := rest }) =
        coverLoop tri m' (processClass tri c { st with worklist := rest })
      rw [ih _ f1 (by omega), hmeq]

theorem coverLoop_inv (tri : TRI) :
    ∀ (fuel : Nat) (st : CoverState), st.covered ⊆ Finset.range tri.numRegClasses →
      coverInv tri st → coverInv tri (coverLoop tri fuel st) := by
  intro fuel
  induction fuel with
  | zero => intro st _ hinv; exact hinv
  | succ fuel ih =>
    intro st hsub hinv
    rw [coverLoop]
    cases hwl : st.worklist with
    | nil => exact hinv
    | cons c rest =>
      obtain ⟨f1, _, f3, f4, f5, f6⟩ :=
        processClass_facts tri c { st with worklist := rest } hsub
      apply ih _ f1
      intro x hx
      rcases f6 x hx with hxc | hxw
      · have hx' : x ∈ st.covered := hxc
        rcases hinv x hx' with hxw' | hxb
        · rw [hwl] at hxw'
          rcases List.mem_cons.mp hxw' with rfl | hxr
          · exact Or.inr f4
          · exact Or.inl (f5 x hxr)
        · exact Or.inr (le_trans hxb f3)
      · exact Or.inl hxw

theorem runCoverage_seed_covered (tri : TRI) (rb : RegisterBank) (s : Finset Nat) (rcId : Nat) :
    ∃ s', (runCoverage tri rb s rcId).containedRegClasses = some s' ∧ rcId ∈ s' :=
  ⟨(coverLoop tri (tri.numRegClasses + 1) ⟨insert rcId s, rb.size, [rcId]⟩).covered, rfl,
    coverLoop_covered_mono tri _ _ (Finset.mem_insert_self rcId s)⟩

/-- Claim C4: `addRegBankCoverage` is idempotent: after one call the seed
class is covered, so a second call with the same (bank, seed class) pair
returns immediately through the already-covered check and leaves the
covered set and the maximal size unchanged. -/
theorem C4_addRegBankCoverage_idempotent (tri : TRI) (rb : RegisterBank) (rcId : Nat) :
    (∃ s, (addRegBankCoverage tri rb rcId).containedRegClasses = some s ∧ rcId ∈ s) ∧
    addRegBankCoverage tri (addRegBankCoverage tri rb rcId) rcId =
      addRegBankCoverage tri rb rcId := by
  have h1 : ∃ s, (addRegBankCoverage tri rb rcId).containedRegClasses = some s ∧ rcId ∈ s := by
    cases hc : rb.containedRegClasses with
    | none =>
      simp only [addRegBankCoverage, hc]
      exact runCoverage_seed_covered tri rb ∅ rcId
    | some s =>
      simp only [addRegBankCoverage, hc]
      by_cases hcov : rb.covers rcId = true
      · rw [if_pos hcov]
        refine ⟨s, hc, ?_⟩
        unfold RegisterBank.covers at hcov
        rw [hc] at hcov
        exact of_decide_eq_true hcov
      · rw [if_neg hcov]
        exact runCoverage_seed_covered tri rb s rcId
  obtain ⟨s, hs, hmem⟩ := h1
  refine ⟨⟨s, hs, hmem⟩, ?_⟩
  have hcov : (addRegBankCoverage tri rb rcId).covers rcId = true := by
    unfold RegisterBank.covers
    rw [hs]
    exact decide_eq_true hmem
  revert hs hcov
  generalize addRegBankCoverage tri rb rcId = rb2
  intro hs hcov
  simp [addRegBankCoverage, hs, hcov]

/-- Claim C5: the worklist loop of `addRegBankCoverage` terminates for
every input whose covered set lies in the register-class catalog: within
`coverMeasure` iterations (bounded by the catalog size plus the pending
worklist) the worklist empties, and giving the loop any more fuel than
that changes nothing. -/
theorem C5_coverLoop_terminates (tri : TRI) (st : CoverState)
    (hsub : st.covered ⊆ Finset.range tri.numRegClasses)
    (fuel : Nat) (hfuel : coverMeasure tri st ≤ fuel) :
    (coverLoop tri fuel st).worklist = [] ∧
    coverLoop tri fuel st = coverLoop tri (coverMeasure tri st) st :=
  ⟨coverLoop_empties tri fuel st hsub hfuel, coverLoop_fuel_stable tri fuel st hsub hfuel⟩

theorem C5_witness :
    (coverLoop triW 5 stW).worklist = [] ∧ coverLoop triW 5 stW = coverLoop triW 3 stW := by
  have h := C5_coverLoop_terminates triW stW (by decide) 5 (by decide)
  have hm : coverMeasure triW stW = 3 := by decide
  rw [hm] at h
  exact h

theorem runCoverage_sound (tri : TRI) (rb : RegisterBank) (s0 : Finset Nat) (rcId : Nat)
    (hrc : rcId < tri.numRegClasses)
    (hs0 : s0 ⊆ Finset.range tri.numRegClasses)
    (hb : ∀ c ∈ s0, tri.getSize c * 8 ≤ rb.size) :
    ∀ s', (runCoverage tri rb s0 rcId).containedRegClasses = some s' →
      ∀ c ∈ s', tri.getSize c * 8 ≤ (runCoverage tri rb s0 rcId).size := by
  intro s' hs' c hc
  have hsub0 : (insert rcId s0 : Finset Nat) ⊆ Finset.range tri.numRegClasses :=
    Finset.insert_subset (Finset.mem_range.mpr hrc) hs0
  have hinv0 : coverInv tri ⟨insert rcId s0, rb.size, [rcId]⟩ := by
    intro x hx
    rcases Finset.mem_insert.mp hx with rfl | hx'
    · exact Or.inl (List.mem_cons_self x [])
    · exact Or.inr (hb x hx')
  have hinvF := coverLoop_inv tri (tri.numRegClasses + 1) ⟨insert rcId s0, rb.size, [rcId]⟩
    hsub0 hinv0
  have hempty := coverLoop_empties tri (tri.numRegClasses + 1) ⟨insert rcId s0, rb.size, [rcId]⟩
    hsub0 (by unfold coverMeasure; simp only [List.length_cons, List.length_nil]; omega)
  have hcs : c ∈ (coverLoop tri (tri.numRegClasses + 1)
      ⟨insert rcId s0, rb.size, [rcId]⟩).covered := by
    have : s' = (coverLoop tri (tri.numRegClasses + 1)
        ⟨insert rcId s0, rb.size, [rcId]⟩).covered := by
      unfold runCoverage at hs'
      exact (Option.some.injEq _ _).mp hs'.symm
    rwa [this] at hc
  rcases hinvF c hcs with hw | hbnd
  · rw [hempty] at hw
    exact absurd hw (List.not_mem_nil c)
  · exact hbnd

/-- Claim C6: for every bank built by `addRegBankCoverage` (from a bank
whose existing coverage already satisfies the bound and lies in the
catalog) and every register class in its covered set, the bank's maximal
size is at least that class's bit width. -/
theorem C6_size_ge_covered (tri : TRI) (rb : RegisterBank) (rcId : Nat)
    (hrc : rcId < tri.numRegClasses)
    (hwf : ∀ s, rb.containedRegClasses = some s →
      s ⊆ Finset.range tri.numRegClasses ∧ ∀ c ∈ s, tri.getSize c * 8 ≤ rb.size) :
    ∀ s', (addRegBankCoverage tri rb rcId).containedRegClasses = some s' →
      ∀ c ∈ s', tri.getSize c * 8 ≤ (addRegBankCoverage tri rb rcId).size := by
  cases hc : rb.containedRegClasses with
  | none =>
    simp only [addRegBankCoverage, hc]
    exact runCoverage_sound tri rb ∅ rcId hrc (Finset.empty_subset _)
      (fun c hc' => absurd hc' (Finset.not_mem_empty c))
  | some s =>
    simp only [addRegBankCoverage, hc]
    by_cases hcov : rb.covers rcId = true
    · rw [if_pos hcov]
      intro s' hs' c hcs
      have hseq : s = s' := by
        rw [hc] at hs'
        exact (Option.some.injEq _ _).mp hs'
      exact (hwf s hc).2 c (by rwa [hseq])
    · rw [if_neg hcov]
      exact runCoverage_sound tri rb s rcId hrc (hwf s hc).1 (hwf s hc).2

theorem C6_witness : triW.getSize 2 * 8 ≤ (addRegBankCoverage triW rbW 0).size :=
  C6_size_ge_covered triW rbW 0 (by decide)
    (fun s hs => Option.noConfusion hs)
    ((coverLoop triW (triW.numRegClasses + 1) ⟨insert 0 ∅, rbW.size, [0]⟩).covered)
    rfl 2 (by decide)

theorem modifyIdx_length {α : Type} (f : α → α) :
    ∀ (i : Nat) (l : List α), (modifyIdx f i l).length = l.length := by
  intro i l
  induction l generalizing i with
  | nil => cases i <;> rfl
  | cons a as ih =>
    cases i with
    | zero => rfl
    | succ i => simp [modifyIdx, ih i]

theorem getIdxD_modifyIdx_self {α : Type} (f : α → α) :
    ∀ (l : List α) (i : Nat) (d : α), i < l.length →
      getIdxD (modifyIdx f i l) i d = f (getIdxD l i d) := by
  intro l
  induction l with
  | nil => intro i d h; simp at h
  | cons a as ih =>
    intro i d h
    cases i with
    | zero => rfl
    | succ i =>
      simp only [List.length_cons] at h
      exact ih i d (by omega)

theorem getIdxD_modifyIdx_ne {α : Type} (f : α → α) :
    ∀ (l : List α) (i j : Nat) (d : α), i ≠ j →
      getIdxD (modifyIdx f j l) i d = getIdxD l i d := by
  intro l
  induction l with
  | nil => intro i j d _; cases j <;> rfl
  | cons a as ih =>
    intro i j d hne
    cases j with
    | zero =>
      cases i with
      | zero => exact absurd rfl hne
      | succ i => rfl
    | succ j =>
      cases i with
      | zero => rfl
      | succ i => exact ih i j d (by omega)

theorem getIdxD_replicate {α : Type} (a : α) :
    ∀ (n k : Nat), getIdxD (List.replicate n a) k a = a := by
  intro n
  induction n with
  | zero => intro k; rfl
  | succ n ih =>
    intro k
    cases k with
    | zero => rfl
    | succ k => exact ih k

theorem setOperandMapping_length (m : InstructionMapping) (i sz : Nat) (rb : RegisterBank) :
    (m.setOperandMapping i sz rb).operandsMapping.length = m.operandsMapping.length := by
  unfold InstructionMapping.setOperandMapping
  exact modifyIdx_length _ i _

theorem getOperandMapping_set_self (m : InstructionMapping) (i sz : Nat) (rb : RegisterBank)
    (h : i < m.operandsMapping.length) :
    (m.setOperandMapping i sz rb).getOperandMapping i =
      ⟨(m.getOperandMapping i).breakDown ++ [⟨⟨sz, 2 ^ sz - 1⟩, some rb⟩]⟩ := by
  unfold InstructionMapping.setOperandMapping InstructionMapping.getOperandMapping
  exact getIdxD_modifyIdx_self _ _ i _ h

theorem getOperandMapping_set_ne (m : InstructionMapping) (i j sz : Nat) (rb : RegisterBank)
    (h : i ≠ j) :
    (m.setOperandMapping j sz rb).getOperandMapping i = m.getOperandMapping i := by
  unfold InstructionMapping.setOperandMapping InstructionMapping.getOperandMapping
  exact getIdxD_modifyIdx_ne _ _ i j _ h

theorem propagateFold_get (sz : Nat) (rb : RegisterBank) :
    ∀ (l : List Nat) (m : InstructionMapping) (k : Nat),
      (∀ i ∈ l, i < m.operandsMapping.length) →
      ((l.foldl (fun m i =>
          if (m.getOperandMapping i).breakDown = [] then m.setOperandMapping i sz rb
          else m) m)).getOperandMapping k =
        if k ∈ l ∧ (m.getOperandMapping k).breakDown = [] then singleMapping sz rb
        else m.getOperandMapping k := by
  intro l
  induction l with
  | nil =>
    intro m k _
    simp
  | cons j rest ih =>
    intro m k hlen
    rw [List.foldl_cons]
    by_cases hj : (m.getOperandMapping j).breakDown = []
    · rw [if_pos hj]
      have hlen' : ∀ i ∈ rest, i < (m.setOperandMapping j sz rb).operandsMapping.length := by
        rw [setOperandMapping_length]
        exact fun i hi => hlen i (List.mem_cons_of_mem j hi)
      rw [ih _ k hlen']
      by_cases hkj : k = j
      · subst hkj
        have hget : (m.setOperandMapping k sz rb).getOperandMapping k = singleMapping sz rb := by
          rw [getOperandMapping_set_self m k sz rb (hlen k (List.mem_cons_self k rest)), hj]
          rfl
        rw [hget]
        simp [singleMapping, hj]
      · rw [getOperandMapping_set_ne m k j sz rb hkj]
        simp [List.mem_cons, hkj]
    · rw [if_neg hj]
      rw [ih m k (fun i hi => hlen i (List.mem_cons_of_mem j hi))]
      by_cases hkj : k = j
      · subst hkj
        simp [hj]
      · simp [List.mem_cons, hkj]

theorem propagateBank_get (numOps sz : Nat) (rb : RegisterBank) (m : InstructionMapping)
    (k : Nat) (hlen : m.operandsMapping.length = numOps) (hk : k < numOps)
    (hempty : (m.getOperandMapping k).breakDown = []) :
    (propagateBank numOps sz rb m).getOperandMapping k = singleMapping sz rb := by
  unfold propagateBank
  rw [propagateFold_get sz rb (List.range numOps) m k
    (fun i hi => by rw [hlen]; exact List.mem_range.mp hi)]
  rw [if_pos ⟨List.mem_range.mpr hk, hempty⟩]

theorem scanStep_shape (env : MappingEnv) (mi : MachineInstr) (c : Bool) (i : Nat)
    (st : ScanState) :
    scanStep env mi c i st = .ret ∨
    scanStep env mi c i st = .brk { st with completeMapping := false } ∨
    scanStep env mi c i st = .cont st ∨
    scanStep env mi c i st = .cont { st with completeMapping := false } ∨
    (∃ mo rb, mi.operands[i]? = some mo ∧ resolveOpBank env mi.opcode i mo.reg = some rb ∧
      scanStep env mi c i st =
        .cont { st with
          regBank := some rb
          regSize := env.sizeInBits mo.reg
          mapping := st.mapping.setOperandMapping i (env.sizeInBits mo.reg) rb }) := by
  cases hmo : mi.operands[i]? with
  | none =>
    refine Or.inr (Or.inr (Or.inl ?_))
    simp [scanStep, hmo]
  | some mo =>
    by_cases hr : mo.isReg = false
    · refine Or.inr (Or.inr (Or.inl ?_))
      simp [scanStep, hmo, hr]
    · by_cases h0 : mo.reg = 0
      · refine Or.inr (Or.inr (Or.inl ?_))
        simp [scanStep, hmo, hr, h0]
      · cases hres : resolveOpBank env mi.opcode i mo.reg with
        | none =>
          by_cases hcl : c = false
          · refine Or.inl ?_
            simp [scanStep, hmo, hr, h0, hres, hcl]
          · by_cases hsome : st.regBank.isSome = true
            · refine Or.inr (Or.inl ?_)
              simp [scanStep, hmo, hr, h0, hres, hcl, hsome]
            · refine Or.inr (Or.inr (Or.inr (Or.inl ?_)))
              simp [scanStep, hmo, hr, h0, hres, hcl, hsome]
        | some rb =>
          refine Or.inr (Or.inr (Or.inr (Or.inr ⟨mo, rb, rfl, hres, ?_⟩)))
          simp [scanStep, hmo, hr, h0, hres]

theorem scanStep_congr (env : MappingEnv) (mi mi' : MachineInstr) (c : Bool) (i : Nat)
    (st : ScanState) (hop : mi'.opcode = mi.opcode)
    (hoper : mi'.operands[i]? = mi.operands[i]?) :
    scanStep env mi' c i st = scanStep env mi c i st := by
  unfold scanStep
  rw [hop, hoper]

theorem scanOps_append (env : MappingEnv) (mi : MachineInstr) (c : Bool) :
    ∀ (l1 l2 : List Nat) (st : ScanState),
      scanOps env mi c (l1 ++ l2) st =
        match scanOps env mi c l1 st with
        | .invalid => .invalid
        | .broke st1 => .broke st1
        | .ran st1 => scanOps env mi c l2 st1 := by
  intro l1
  induction l1 with
  | nil => intro l2 st; rfl
  | cons i rest ih =>
    intro l2 st
    show (match scanStep env mi c i st with
      | StepRes.ret => ScanRes.invalid
      | StepRes.brk st1 => ScanRes.broke st1
      | StepRes.cont st1 => scanOps env mi c (rest ++ l2) st1) =
      (match (match scanStep env mi c i st with
        | StepRes.ret => ScanRes.invalid
        | StepRes.brk st1 => ScanRes.broke st1
        | StepRes.cont st1 => scanOps env mi c rest st1) with
        | ScanRes.invalid => ScanRes.invalid
        | ScanRes.broke st1 => ScanRes.broke st1
        | ScanRes.ran st1 => scanOps env mi c l2 st1)
    cases scanStep env mi c i st with
    | ret => rfl
    | brk st1 => rfl
    | cont st1 => exact ih l2 st1

theorem scanOps_mapping_len (env : MappingEnv) (mi : MachineInstr) (c : Bool) :
    ∀ (l : List Nat) (st st' : ScanState),
      (scanOps env mi c l st = .broke st' ∨ scanOps env mi c l st = .ran st') →
      st'.mapping.operandsMapping.length = st.mapping.operandsMapping.length := by
  intro l
  induction l with
  | nil =>
    intro st st' h
    rcases h with h | h
    · exact absurd h (by simp [scanOps])
    · have heq : st = st' := by simpa [scanOps] using h
      rw [← heq]
  | cons i rest ih =>
    intro st st' h
    rcases scanStep_shape env mi c i st with hs | hs | hs | hs | ⟨mo, rb, hmo, hres, hs⟩
    · simp only [scanOps, hs] at h
      rcases h with h | h <;> exact absurd h (by simp)
    · simp only [scanOps, hs] at h
      rcases h with h | h
      · have heq : ({ st with completeMapping := false } : ScanState) = st' := by
          simpa using h
        rw [← heq]
      · exact absurd h (by simp)
    · simp only [scanOps, hs] at h
      exact ih st st' h
    · simp only [scanOps, hs] at h
      exact ih { st with completeMapping := false } st' h
    · simp only [scanOps, hs] at h
      have hlen := ih { st with
          regBank := some rb
          regSize := env.sizeInBits mo.reg
          mapping := st.mapping.setOperandMapping i (env.sizeInBits mo.reg) rb } st' h
      rw [hlen]
      exact setOperandMapping_length st.mapping i (env.sizeInBits mo.reg) rb

theorem scanOps_untouched (env : MappingEnv) (mi : MachineInstr) (c : Bool) :
    ∀ (l : List Nat) (st st' : ScanState), scanOps env mi c l st = .ran st' →
      ∀ k, k ∉ l → st'.mapping.getOperandMapping k = st.mapping.getOperandMapping k := by
  intro l
  induction l with
  | nil =>
    intro st st' h k _
    have heq : st = st' := by simpa [scanOps] using h
    rw [← heq]
  | cons i rest ih =>
    intro st st' h k hk
    have hkr : k ∉ rest := fun hx => hk (List.mem_cons_of_mem i hx)
    have hki : k ≠ i := fun hx => hk (hx ▸ List.mem_cons_self i rest)
    rcases scanStep_shape env mi c i st with hs | hs | hs | hs | ⟨mo, rb, hmo, hres, hs⟩
    · simp only [scanOps, hs] at h
      exact absurd h (by simp)
    · simp only [scanOps, hs] at h
      exact absurd h (by simp)
    · simp only [scanOps, hs] at h
      exact ih st st' h k hkr
    · simp only [scanOps, hs] at h
      exact ih { st with completeMapping := false } st' h k hkr
    · simp only [scanOps, hs] at h
      have hstep := ih { st with
          regBank := some rb
          regSize := env.sizeInBits mo.reg
          mapping := st.mapping.setOperandMapping i (env.sizeInBits mo.reg) rb } st' h k hkr
      rw [hstep]
      exact getOperandMapping_set_ne st.mapping k i (env.sizeInBits mo.reg) rb hki

theorem scanOps_bank_src (env : MappingEnv) (mi : MachineInstr) (c : Bool) :
    ∀ (l : List Nat) (st st' : ScanState),
      (scanOps env mi c l st = .broke st' ∨ scanOps env mi c l st = .ran st') →
      regBankFromScannedOperand env mi st → regBankFromScannedOperand env mi st' := by
  intro l
  induction l with
  | nil =>
    intro st st' h hq
    rcases h with h | h
    · exact absurd h (by simp [scanOps])
    · have heq : st = st' := by simpa [scanOps] using h
      rw [← heq]
      exact hq
  | cons i rest ih =>
    intro st st' h hq
    rcases scanStep_shape env mi c i st with hs | hs | hs | hs | ⟨mo, rb, hmo, hres, hs⟩
    · simp only [scanOps, hs] at h
      rcases h with h | h <;> exact absurd h (by simp)
    · simp only [scanOps, hs] at h
      rcases h with h | h
      · have heq : ({ st with completeMapping := false } : ScanState) = st' := by
          simpa using h
        rw [← heq]
        exact hq
      · exact absurd h (by simp)
    · simp only [scanOps, hs] at h
      exact ih st st' h hq
    · simp only [scanOps, hs] at h
      exact ih { st with completeMapping := false } st' h hq
    · simp only [scanOps, hs] at h
      refine ih _ st' h (Or.inr ⟨i, mo, hmo, ?_, rfl⟩)
      rw [hres]

theorem scanOps_congr (env : MappingEnv) (mi mi' : MachineInstr) (c : Bool)
    (hop : mi'.opcode = mi.opcode) :
    ∀ (l : List Nat) (st : ScanState),
      (∀ i ∈ l, mi'.operands[i]? = mi.operands[i]?) →
      scanOps env mi' c l st = scanOps env mi c l st := by
  intro l
  induction l with
  | nil => intro st _; rfl
  | cons i rest ih =>
    intro st hops
    show (match scanStep env mi' c i st with
      | StepRes.ret => ScanRes.invalid
      | StepRes.brk st1 => ScanRes.broke st1
      | StepRes.cont st1 => scanOps env mi' c rest st1) =
      (match scanStep env mi c i st with
      | StepRes.ret => ScanRes.invalid
      | StepRes.brk st1 => ScanRes.broke st1
      | StepRes.cont st1 => scanOps env mi c rest st1)
    rw [scanStep_congr env mi mi' c i st hop (hops i (List.mem_cons_self i rest))]
    cases scanStep env mi c i st with
    | ret => rfl
    | brk st1 => rfl
    | cont st1 => exact ih st1 (fun j hj => hops j (List.mem_cons_of_mem i hj))

theorem scanStep_ret_iff (env : MappingEnv) (mi : MachineInstr) (i : Nat) (st : ScanState) :
    scanStep env mi false i st = .ret ↔ unresolvableRegOperand env mi i := by
  constructor
  · intro h
    rcases scanStep_shape env mi false i st with hs | hs | hs | hs | ⟨mo, rb, hmo, hres, hs⟩
    · -- the only `.ret` branch is the unresolvable one: recompute it
      cases hmo : mi.operands[i]? with
      | none => rw [show scanStep env mi false i st = .cont st by simp [scanStep, hmo]] at h
                exact absurd h (by simp)
      | some mo =>
        by_cases hr : mo.isReg = false
        · rw [show scanStep env mi false i st = .cont st by simp [scanStep, hmo, hr]] at h
          exact absurd h (by simp)
        · by_cases h0 : mo.reg = 0
          · rw [show scanStep env mi false i st = .cont st by simp [scanStep, hmo, hr, h0]] at h
            exact absurd h (by simp)
          · cases hres : resolveOpBank env mi.opcode i mo.reg with
            | none =>
              refine ⟨mo, hmo, ?_, h0, hres⟩
              cases hb : mo.isReg with
              | false => exact absurd hb hr
              | true => rfl
            | some rb =>
              rw [show scanStep env mi false i st = .cont { st with
                  regBank := some rb
                  regSize := env.sizeInBits mo.reg
                  mapping := st.mapping.setOperandMapping i (env.sizeInBits mo.reg) rb } by
                simp [scanStep, hmo, hr, h0, hres]] at h
              exact absurd h (by simp)
    · rw [hs] at h; exact absurd h (by simp)
    · rw [hs] at h; exact absurd h (by simp)
    · rw [hs] at h; exact absurd h (by simp)
    · rw [hs] at h; exact absurd h (by simp)
  · intro ⟨mo, hmo, hr, h0, hres⟩
    have hr' : ¬(mo.isReg = false) := by rw [hr]; simp
    simp [scanStep, hmo, hr', h0, hres]

theorem scanStep_noncopy_cases (env : MappingEnv) (mi : MachineInstr) (i : Nat)
    (st : ScanState) :
    scanStep env mi false i st = .ret ∨ ∃ st1, scanStep env mi false i st = .cont st1 := by
  rcases scanStep_shape env mi false i st with hs | hs | hs | hs | ⟨mo, rb, hmo, hres, hs⟩
  · exact Or.inl hs
  · -- the `.brk` branch needs `isCopyLike = true`: impossible here
    exfalso
    cases hmo : mi.operands[i]? with
    | none => rw [show scanStep env mi false i st = .cont st by simp [scanStep, hmo]] at hs
              exact absurd hs (by simp)
    | some mo =>
      by_cases hr : mo.isReg = false
      · rw [show scanStep env mi false i st = .cont st by simp [scanStep, hmo, hr]] at hs
        exact absurd hs (by simp)
      · by_cases h0 : mo.reg = 0
        · rw [show scanStep env mi false i st = .cont st by simp [scanStep, hmo, hr, h0]] at hs
          exact absurd hs (by simp)
        · cases hres : resolveOpBank env mi.opcode i mo.reg with
          | none =>
            rw [show scanStep env mi false i st = .ret by simp [scanStep, hmo, hr, h0, hres]] at hs
            exact absurd hs (by simp)
          | some rb =>
            rw [show scanStep env mi false i st = .cont { st with
                regBank := some rb
                regSize := env.sizeInBits mo.reg
                mapping := st.mapping.setOperandMapping i (env.sizeInBits mo.reg) rb } by
              simp [scanStep, hmo, hr, h0, hres]] at hs
            exact absurd hs (by simp)
  · exact Or.inr ⟨st, hs⟩
  · exact Or.inr ⟨{ st with completeMapping := false }, hs⟩
  · exact Or.inr ⟨_, hs⟩

theorem scanOps_invalid_of_unresolvable (env : MappingEnv) (mi : MachineInstr) :
    ∀ (l : List Nat) (st : ScanState), (∃ i ∈ l, unresolvableRegOperand env mi i) →
      scanOps env mi false l st = .invalid := by
  intro l
  induction l with
  | nil => intro st h; simp at h
  | cons j rest ih =>
    intro st ⟨i, hmem, hbad⟩
    by_cases hj : unresolvableRegOperand env mi j
    · have hret := (scanStep_ret_iff env mi j st).mpr hj
      simp only [scanOps, hret]
    · rcases scanStep_noncopy_cases env mi j st with hret | ⟨st1, hcont⟩
      · exact absurd ((scanStep_ret_iff env mi j st).mp hret) hj
      · simp only [scanOps, hcont]
        apply ih
        refine ⟨i, ?_, hbad⟩
        rcases List.mem_cons.mp hmem with rfl | hir
        · exact absurd hbad hj
        · exact hir

/-- Claim C3: for a non-copy-like instruction (not a register copy, not a
phi), if some register operand with a real register has neither an
already-assigned bank nor a bank derivable from its register-class
constraint, `getInstrMappingImpl` returns the invalid mapping with no
partial result for any operand. -/
theorem C3_noncopy_invalid (env : MappingEnv) (mi : MachineInstr)
    (hnc : (mi.isCopy || mi.isPHI) = false)
    (hbad : ∃ i, unresolvableRegOperand env mi i) :
    getInstrMappingImpl env mi = InstructionMapping.invalid := by
  obtain ⟨i, hi⟩ := hbad
  have hilen : i < mi.operands.length := by
    obtain ⟨mo, hmo, _⟩ := hi
    by_contra hge
    push_neg at hge
    rw [List.getElem?_eq_none hge] at hmo
    exact Option.noConfusion hmo
  have hscan : scanInstr env mi = .invalid := by
    unfold scanInstr
    rw [hnc]
    exact scanOps_invalid_of_unresolvable env mi _ _ ⟨i, List.mem_range.mpr hilen, hi⟩
  unfold getInstrMappingImpl
  rw [hscan]

theorem C3_witness : getInstrMappingImpl envPhi miAdd = InstructionMapping.invalid :=
  C3_noncopy_invalid envPhi miAdd (by decide)
    ⟨1, ⟨true, 4⟩, by decide, by decide, by decide, by decide⟩

theorem initMapping_get (numOps k : Nat) :
    (initMapping numOps).getOperandMapping k = ⟨[]⟩ := by
  unfold initMapping InstructionMapping.getOperandMapping
  exact getIdxD_replicate _ numOps k

theorem initMapping_len (numOps : Nat) :
    (initMapping numOps).operandsMapping.length = numOps := by
  unfold initMapping
  exact List.length_replicate numOps _

theorem getInstrMappingImpl_propagate (env : MappingEnv) (mi : MachineInstr)
    (st : ScanState) (rb : RegisterBank)
    (hres : scanInstr env mi = .broke st ∨ scanInstr env mi = .ran st)
    (hcm : st.completeMapping = false)
    (hbank : st.regBank = some rb) :
    getInstrMappingImpl env mi = propagateBank mi.operands.length st.regSize rb st.mapping := by
  rcases hres with h | h <;>
  · unfold getInstrMappingImpl
    rw [h]
    simp [hcm, hbank]

theorem scanInstr_mapping_len (env : MappingEnv) (mi : MachineInstr) (st : ScanState)
    (hres : scanInstr env mi = .broke st ∨ scanInstr env mi = .ran st) :
    st.mapping.operandsMapping.length = mi.operands.length := by
  have h := scanOps_mapping_len env mi (mi.isCopy || mi.isPHI)
    (List.range mi.operands.length) (initScanState mi.operands.length) st
    (by unfold scanInstr at hres; exact hres)
  rw [h]
  exact initMapping_len mi.operands.length

/-- Claim C2 (amended): when the copy-like scan of `getInstrMappingImpl`
ends incomplete but holding a bank, every operand whose decomposition is
still empty is assigned one partial mapping of that bank at the held
`RegSize`: the bit width of the register of the operand that most recently
resolved a bank (not each operand's own width, and not necessarily the
register that first produced that bank). -/
theorem C2_amended_propagates_last_resolved (env : MappingEnv) (mi : MachineInstr)
    (st : ScanState) (rb : RegisterBank)
    (hres : scanInstr env mi = .broke st ∨ scanInstr env mi = .ran st)
    (hcm : st.completeMapping = false)
    (hbank : st.regBank = some rb) :
    (∀ k, k < mi.operands.length → (st.mapping.getOperandMapping k).breakDown = [] →
      (getInstrMappingImpl env mi).getOperandMapping k = singleMapping st.regSize rb) ∧
    (∃ j mo, mi.operands[j]? = some mo ∧ resolveOpBank env mi.opcode j mo.reg = some rb ∧
      st.regSize = env.sizeInBits mo.reg) := by
  have himpl := getInstrMappingImpl_propagate env mi st rb hres hcm hbank
  constructor
  · intro k hk hempty
    rw [himpl]
    exact propagateBank_get mi.operands.length st.regSize rb st.mapping k
      (scanInstr_mapping_len env mi st hres) hk hempty
  · have hq := scanOps_bank_src env mi (mi.isCopy || mi.isPHI)
      (List.range mi.operands.length) (initScanState mi.operands.length) st
      (by unfold scanInstr at hres; exact hres) (Or.inl rfl)
    rcases hq with hnone | ⟨j, mo, hmo, hres2, hsz⟩
    · rw [hbank] at hnone
      exact Option.noConfusion hnone
    · rw [hbank] at hres2
      exact ⟨j, mo, hmo, hres2, hsz⟩

/-- Counterexample to claim C2 as stated: in the 3-operand phi `miPhi`
under `envPhi`, bank GPR is first produced by operand 0 whose register 1
is 32 bits wide, yet the unresolved operand 2 is propagated GPR at width
64 (the width of register 2, the operand that resolved a bank most
recently before the scan stopped), not at width 32. -/
theorem C2_counterexample_width_not_first :
    resolveOpBank envPhi miPhi.opcode 0 1 = some bankGPR ∧
    envPhi.sizeInBits 1 = 32 ∧
    resolveOpBank envPhi miPhi.opcode 2 3 = none ∧
    (getInstrMappingImpl envPhi miPhi).getOperandMapping 2 = singleMapping 64 bankGPR ∧
    (getInstrMappingImpl envPhi miPhi).getOperandMapping 2 ≠ singleMapping 32 bankGPR := by
  refine ⟨by decide, by decide, by decide, by decide, by decide⟩

theorem C2_amended_witness :
    (getInstrMappingImpl envPhi miPhi).getOperandMapping 2 = singleMapping 64 bankGPR :=
  (C2_amended_propagates_last_resolved envPhi miPhi stPhiB bankGPR
    (Or.inl (by decide)) rfl rfl).1 2 (by decide) (by decide)

theorem scanInstr_broke_mid (env : MappingEnv) (mi : MachineInstr) (j : Nat)
    (st st1 : ScanState) (hj : j < mi.operands.length)
    (hcl : (mi.isCopy || mi.isPHI) = true)
    (hpre : scanOps env mi true (List.range j) (initScanState mi.operands.length) = .ran st)
    (hstep : scanStep env mi true j st = .brk st1) :
    scanInstr env mi = .broke st1 := by
  obtain ⟨k, hk⟩ : ∃ k, mi.operands.length = j + 1 + k :=
    ⟨mi.operands.length - (j + 1), by omega⟩
  have hrange : List.range mi.operands.length =
      (List.range j ++ [j]) ++ (List.range k).map (fun x => j + 1 + x) := by
    rw [hk, show j + 1 + k = (j + 1) + k from rfl, List.range_add, List.range_succ]
  unfold scanInstr
  rw [hcl, hrange]
  simp only [scanOps_append, hpre, scanOps, hstep]

/-- Claim C10 (implicit): in the copy-like path, once some operand has
yielded a bank the scan stops at the first subsequent bankless register
operand; the result is the propagation of the held bank (at the held
register size) over the mapping built so far, every operand from the break
point onward — including later operands that do have their own known
bank — is left empty and then assigned that bank at the propagating
register's width, and the result does not depend on any operand beyond the
break point. -/
theorem C10_scan_break_propagation (env : MappingEnv) (mi : MachineInstr) (j : Nat)
    (st : ScanState) (rb : RegisterBank)
    (hcl : (mi.isCopy || mi.isPHI) = true)
    (hpre : scanOps env mi true (List.range j) (initScanState mi.operands.length) = .ran st)
    (hbank : st.regBank = some rb)
    (hj : ∃ mo, mi.operands[j]? = some mo ∧ mo.isReg = true ∧ mo.reg ≠ 0 ∧
      resolveOpBank env mi.opcode j mo.reg = none) :
    getInstrMappingImpl env mi = propagateBank mi.operands.length st.regSize rb st.mapping ∧
    (∀ k, j ≤ k → k < mi.operands.length →
      (getInstrMappingImpl env mi).getOperandMapping k = singleMapping st.regSize rb) ∧
    (∀ mi' : MachineInstr, mi'.opcode = mi.opcode → mi'.isCopy = mi.isCopy →
      mi'.isPHI = mi.isPHI → mi'.operands.length = mi.operands.length →
      (∀ k, k ≤ j → mi'.operands[k]? = mi.operands[k]?) →
      getInstrMappingImpl env mi' = getInstrMappingImpl env mi) := by
  obtain ⟨mo, hmo, hisreg, hreg0, hresnone⟩ := hj
  have hjlen : j < mi.operands.length := by
    by_contra hge
    push_neg at hge
    rw [List.getElem?_eq_none hge] at hmo
    exact Option.noConfusion hmo
  have hr' : ¬(mo.isReg = false) := by rw [hisreg]; simp
  have hsome : st.regBank.isSome = true := by rw [hbank]; rfl
  have hstep : scanStep env mi true j st = .brk { st with completeMapping := false } := by
    simp [scanStep, hmo, hr', hreg0, hresnone, hsome]
  have hscan := scanInstr_broke_mid env mi j st _ hjlen hcl hpre hstep
  have himpl : getInstrMappingImpl env mi =
      propagateBank mi.operands.length st.regSize rb st.mapping :=
    getInstrMappingImpl_propagate env mi { st with completeMapping := false } rb
      (Or.inl hscan) rfl hbank
  refine ⟨himpl, ?_, ?_⟩
  · intro k hjk hklen
    rw [himpl]
    apply propagateBank_get
    · exact scanInstr_mapping_len env mi { st with completeMapping := false } (Or.inl hscan)
    · exact hklen
    · have huntouched := scanOps_untouched env mi true (List.range j)
        (initScanState mi.operands.length) st hpre k (by
          intro hmem
          have hlt := List.mem_range.mp hmem
          omega)
      rw [huntouched]
      show ((initMapping mi.operands.length).getOperandMapping k).breakDown = []
      rw [initMapping_get]
  · intro mi' hop hcopy hphi hlen hagree
    have hcl' : (mi'.isCopy || mi'.isPHI) = true := by rw [hcopy, hphi]; exact hcl
    have hpre' : scanOps env mi' true (List.range j) (initScanState mi'.operands.length) =
        .ran st := by
      rw [hlen]
      rw [scanOps_congr env mi mi' true hop (List.range j)
        (initScanState mi.operands.length) (fun i hi => hagree i (by
          have hlt := List.mem_range.mp hi
          omega))]
      exact hpre
    have hstep' : scanStep env mi' true j st = .brk { st with completeMapping := false } := by
      rw [scanStep_congr env mi mi' true j st hop (hagree j le_rfl)]
      exact hstep
    have hjlen' : j < mi'.operands.length := by omega
    have hscan' := scanInstr_broke_mid env mi' j st _ hjlen' hcl' hpre' hstep'
    have himpl' : getInstrMappingImpl env mi' =
        propagateBank mi'.operands.length st.regSize rb st.mapping :=
      getInstrMappingImpl_propagate env mi' { st with completeMapping := false } rb
        (Or.inl hscan') rfl hbank
    rw [himpl', himpl, hlen]

theorem C10_witness :
    (getInstrMappingImpl envPhi miPhi4).getOperandMapping 2 = singleMapping 32 bankGPR ∧
    getInstrMappingImpl envPhi miPhi4b = getInstrMappingImpl envPhi miPhi4 := by
  have h := C10_scan_break_propagation envPhi miPhi4 1 stPhi4 bankGPR (by decide) (by decide)
    rfl ⟨⟨true, 3⟩, by decide, by decide, by decide, by decide⟩
  exact ⟨h.2.1 2 (by decide) (by decide),
    h.2.2 miPhi4b (by decide) (by decide) (by decide) (by decide)
      (fun k hk => by interval_cases k <;> rfl)⟩
